import Mathlib

/-!
Verification of the trigger-extraction and Anki-synchronization pipeline of the
obsidian-trigger-flashcards plugin.  The TypeScript sources are shallowly
embedded: strings are modelled as `List Char`, the line-oriented regular
expressions of `main.ts` are modelled by equivalent structural scans, and the
stateful reconciliation loop of `AnkiDirectExporter.processQuestionGroup` is
modelled as a pure step function whose outputs record the remote calls it makes.
-/

/-- Whitespace test matching the JavaScript regex class \s on the ASCII range
(space, tab, newline, carriage return, vertical tab, form feed). -/
def jsIsSpace (c : Char) : Bool :=
  c = ' ' || c = '\t' || c = '\n' || c = '\r' || c = '\x0b' || c = '\x0c'

/-- ASCII lower-casing, matching String.prototype.toLowerCase on the
ASCII range (the only range exercised by the pipeline). -/
def toLowerC (c : Char) : Char :=
  if 'A' ≤ c ∧ c ≤ 'Z' then Char.ofNat (c.toNat + 32) else c

/-- Word-character test matching the JavaScript regex class \w
([A-Za-z0-9_]). -/
def isWordChar (c : Char) : Bool :=
  ('a' ≤ c && c ≤ 'z') || ('A' ≤ c && c ≤ 'Z') || ('0' ≤ c && c ≤ '9') || c = '_'

/-- Trim, matching String.prototype.trim: drop whitespace from both ends. -/
def trimL (l : List Char) : List Char :=
  ((l.dropWhile jsIsSpace).reverse.dropWhile jsIsSpace).reverse

/-- Test whether pat occurs at the start of l (the anchored part of a
regex match, or String.prototype.startsWith). -/
def startsWithL (pat l : List Char) : Bool :=
  l.take pat.length = pat

/-- Test whether pat occurs anywhere in l, matching
String.prototype.includes. -/
def containsL (pat : List Char) : List Char → Bool
  | [] => pat.isEmpty
  | c :: cs => startsWithL pat (c :: cs) || containsL pat cs

/-- Count of the positions of l at which pat starts (used to count cloze
deletion markers). -/
def countOcc (pat : List Char) : List Char → Nat
  | [] => 0
  | c :: cs => (if startsWithL pat (c :: cs) then 1 else 0) + countOcc pat cs

/-- Split on newline characters, matching String.prototype.split with
separator a newline ("" splits to [""]). -/
def splitLines : List Char → List (List Char)
  | [] => [[]]
  | c :: cs =>
    if c = '\n' then [] :: splitLines cs
    else
      match splitLines cs with
      | [] => [[c]]
      | l :: ls => (c :: l) :: ls

theorem splitLines_ne_nil (l : List Char) : splitLines l ≠ [] := by
  induction l with
  | nil => simp [splitLines]
  | cons c cs ih =>
    simp only [splitLines]
    split
    · simp
    · cases h : splitLines cs <;> simp

theorem startsWithL_iff (pat l : List Char) :
    startsWithL pat l = true ↔ ∃ r, l = pat ++ r := by
  constructor
  · intro h
    refine ⟨l.drop pat.length, ?_⟩
    have h' : l.take pat.length = pat := by
      simpa [startsWithL] using h
    conv_lhs => rw [← List.take_append_drop pat.length l, h']
  · rintro ⟨r, rfl⟩
    simp [startsWithL, List.take_append_of_le_length]

theorem containsL_iff (pat l : List Char) :
    containsL pat l = true ↔ ∃ a b, l = a ++ pat ++ b := by
  induction l with
  | nil =>
    simp only [containsL, List.isEmpty_iff]
    constructor
    · rintro rfl; exact ⟨[], [], rfl⟩
    · rintro ⟨a, b, h⟩
      rcases List.append_eq_nil.mp (List.append_eq_nil.mp h.symm).1 with ⟨-, h2⟩
      exact h2
  | cons c cs ih =>
    simp only [containsL, Bool.or_eq_true, ih, startsWithL_iff]
    constructor
    · rintro (⟨r, h⟩ | ⟨a, b, rfl⟩)
      · exact ⟨[], r, by simpa using h⟩
      · exact ⟨c :: a, b, by simp⟩
    · rintro ⟨a, b, h⟩
      cases a with
      | nil => exact Or.inl ⟨b, by simpa using h⟩
      | cons a0 as =>
        simp only [List.cons_append, List.cons.injEq] at h
        exact Or.inr ⟨as, b, h.2⟩

/-- Membership in a line of splitLines implies membership in the document. -/
theorem mem_of_mem_splitLines {content : List Char} {l : List Char}
    (hl : l ∈ splitLines content) {c : Char} (hc : c ∈ l) : c ∈ content := by
  induction content generalizing l with
  | nil =>
    simp [splitLines] at hl
    subst hl
    simp at hc
  | cons x xs ih =>
    by_cases hx : x = '\n'
    · subst hx
      simp only [splitLines, if_pos rfl] at hl
      rcases List.mem_cons.mp hl with rfl | hl
      · simp at hc
      · exact List.mem_cons_of_mem _ (ih hl hc)
    · rcases h : splitLines xs with _ | ⟨l0, ls⟩
      · exact absurd h (splitLines_ne_nil xs)
      · simp only [splitLines, if_neg hx, h] at hl
        rcases List.mem_cons.mp hl with rfl | hl
        · rcases List.mem_cons.mp hc with rfl | hc0
          · exact List.mem_cons_self _ _
          · have hl0 : l0 ∈ splitLines xs := by rw [h]; exact List.mem_cons_self _ _
            exact List.mem_cons_of_mem _ (ih hl0 hc0)
        · have hl' : l ∈ splitLines xs := by rw [h]; exact List.mem_cons_of_mem _ hl
          exact List.mem_cons_of_mem _ (ih hl' hc)

theorem mem_of_mem_trimL {l : List Char} {c : Char} (h : c ∈ trimL l) : c ∈ l := by
  unfold trimL at h
  rw [List.mem_reverse] at h
  have h1 := List.dropWhile_sublist (l := (l.dropWhile jsIsSpace).reverse) jsIsSpace
  have h2 := h1.subset h
  rw [List.mem_reverse] at h2
  exact (List.dropWhile_sublist jsIsSpace).subset h2

theorem mem_of_mem_dropWhile {p : Char → Bool} {l : List Char} {c : Char}
    (h : c ∈ l.dropWhile p) : c ∈ l :=
  (List.dropWhile_sublist p).subset h

theorem mem_of_mem_take {l : List Char} {n : Nat} {c : Char}
    (h : c ∈ l.take n) : c ∈ l :=
  (List.take_sublist n l).subset h

theorem mem_of_mem_drop {l : List Char} {n : Nat} {c : Char}
    (h : c ∈ l.drop n) : c ∈ l :=
  (List.drop_sublist n l).subset h

/-!
Highlight extraction (main.ts extractHighlights): the global regex
==(.*?)== scanned left to right; the lazy inner group stops at the first
closing pair of equals signs and may not cross a newline.
-/

/-- Scan for the earliest closing pair of equals signs, returning the lazy
inner text and the remainder after the closing delimiter; fails at a newline
(the regex dot does not match newline) or at the end of input. -/
def findCloseEq : List Char → Option (List Char × List Char)
  | '=' :: '=' :: rest => some ([], rest)
  | '\n' :: _ => none
  | c :: rest =>
    match findCloseEq rest with
    | some (inner, after) => some (c :: inner, after)
    | none => none
  | [] => none

/-- Fuel-driven scan of the global regex ==(.*?)==: at two leading equals
signs the earliest closing pair is sought; on success the raw match (keeping
its delimiters) is collected and scanning resumes after it, otherwise the
scanner advances one character, exactly as the regex engine does.  The fuel
argument only bounds the recursion; extractHighlights supplies enough fuel
for the scan to run to completion. -/
def extractHighlightsAux : Nat → List Char → List (List Char)
  | 0, _ => []
  | _ + 1, [] => []
  | fuel + 1, '=' :: '=' :: rest =>
    match findCloseEq rest with
    | some (inner, after) =>
      ('=' :: '=' :: (inner ++ ['=', '='])) :: extractHighlightsAux fuel after
    | none => extractHighlightsAux fuel ('=' :: rest)
  | fuel + 1, _ :: rest => extractHighlightsAux fuel rest

/-- Model of main.ts extractHighlights: all matches of ==(.*?)== in order,
delimiters kept (the source keeps the markers for later substitution). -/
def extractHighlights (content : List Char) : List (List Char) :=
  extractHighlightsAux content.length content

/-- Model of the global replacement highlight.replace with pattern ==
and empty replacement (main.ts line cleanHighlight): delete every
non-overlapping occurrence of a pair of equals signs, left to right. -/
def stripEqEq : List Char → List Char
  | [] => []
  | [c] => [c]
  | c1 :: c2 :: rest =>
    if c1 = '=' ∧ c2 = '=' then stripEqEq rest
    else c1 :: stripEqEq (c2 :: rest)

/-!
Cue-line extraction (main.ts extractRemNoteCues): the multiline regex
matching a line made of a colon-free prefix, a double colon, and a non-empty
colon-free suffix, with a post-filter dropping lines containing a highlight
delimiter.
-/

/-- Decision procedure for one line of the regex used by extractRemNoteCues:
a possibly-empty run of non-colon characters, then two colons, then at least
one non-colon character reaching the end of the line. -/
def cueRegexB (l : List Char) : Bool :=
  startsWithL [':', ':'] (l.dropWhile (fun c => c ≠ ':')) &&
  !((l.dropWhile (fun c => c ≠ ':')).drop 2).isEmpty &&
  ((l.dropWhile (fun c => c ≠ ':')).drop 2).all (fun c => c ≠ ':')

/-- Model of main.ts extractRemNoteCues: collect the lines matched by the
cue regex, then drop any line containing a highlight delimiter. -/
def extractRemNoteCues (content : List Char) : List (List Char) :=
  ((splitLines content).filter cueRegexB).filter
    (fun l => !containsL ['=', '='] l)

/-- Split on every double-colon occurrence, matching
String.prototype.split with separator a double colon (used by
generateContextualQACards to separate prompt and answer). -/
def splitOnDoubleColon : List Char → List (List Char)
  | ':' :: ':' :: rest => [] :: splitOnDoubleColon rest
  | c :: rest =>
    match splitOnDoubleColon rest with
    | [] => [[c]]
    | p :: ps => (c :: p) :: ps
  | [] => [[]]

/-- Prompt and answer derived from a cue line by generateContextualQACards:
the first two double-colon separated parts, both trimmed; none when the
split yields fewer than two parts. -/
def cueQAPair (l : List Char) : Option (List Char × List Char) :=
  match splitOnDoubleColon l with
  | p0 :: p1 :: _ => some (trimL p0, trimL p1)
  | _ => none

/-- Predicate transcribing the words of claim C4: a NON-EMPTY prefix, the
double-colon separator, a non-empty suffix, no other double colon anywhere
on the line, and no highlight delimiter. -/
def claimedCuePred (l : List Char) : Prop :=
  (∃ a b, l = a ++ [':', ':'] ++ b ∧ a ≠ [] ∧ b ≠ []) ∧
    countOcc [':', ':'] l = 1 ∧ containsL ['=', '='] l = false

/-- Predicate transcribing the amended characterization: a possibly-empty
colon-free prefix, the double-colon separator, a non-empty colon-free
suffix, and no highlight delimiter on the line. -/
def amendedCuePred (l : List Char) : Prop :=
  (∃ a b, l = a ++ [':', ':'] ++ b ∧ (∀ c ∈ a, c ≠ ':') ∧ b ≠ [] ∧
    (∀ c ∈ b, c ≠ ':')) ∧ containsL ['=', '='] l = false

/-!
Trigger-line extraction (main.ts checkForTriggerWords together with the
answer capture of generateContextualTriggerCards).  Both apply, per line and
per configured trigger word t, the case-insensitive anchored regex
with an optional run of one to three asterisks, optional whitespace, the
trigger word, optional whitespace, a colon or period, optional whitespace
and a non-empty tail.  The model below is equivalent to the regex whenever
the trigger word does not begin with an asterisk or a whitespace character
and contains no regex metacharacters, which holds for every configured
trigger exercised by the claims; regex backtracking never fires then.
-/

/-- Tail of a trigger-line match: the characters after the separator.  The
regex group three equals this tail with its leading whitespace removed when
some non-whitespace remains, and a single whitespace character otherwise;
in both cases trimming group three equals trimming the tail, which is what
the card builder uses. -/
def triggerRegexTail (t line : List Char) : Option (List Char) :=
  let stars := line.takeWhile (fun c => c = '*')
  if 3 < stars.length then none
  else
    let l1 := (line.drop stars.length).dropWhile jsIsSpace
    if (l1.take t.length).map toLowerC = t.map toLowerC then
      match (l1.drop t.length).dropWhile jsIsSpace with
      | [] => none
      | sep :: l4 =>
        if (sep = ':' ∨ sep = '.') ∧ l4 ≠ [] then some l4 else none
    else none

/-- Whether the trigger regex of checkForTriggerWords matches the line. -/
def triggerMatchB (t line : List Char) : Bool :=
  (triggerRegexTail t line).isSome

/-- Captured answer of a trigger line, as computed by
generateContextualTriggerCards: regex group three, trimmed. -/
def triggerCapturedAnswer (t line : List Char) : Option (List Char) :=
  (triggerRegexTail t line).map trimL

/-- Model of main.ts checkForTriggerWords: for every line and every
configured trigger word, if the trigger regex matches, the whole matched
line is pushed; the inner loop has no break, so one line contributes one
entry per matching trigger word. -/
def checkForTriggerWords (triggers : List (List Char)) (content : List Char) :
    List (List Char) :=
  (splitLines content).flatMap
    (fun line => (triggers.filter (fun t => triggerMatchB t line)).map
      (fun _ => line))

/-- Predicate transcribing the amended general rule of claim C2: after
stripping up to three leading asterisks and then leading whitespace, the
line begins case-insensitively with the trigger word, followed by optional
whitespace, a colon or a period, and at least one further character. -/
def triggerRuleSpec (t line : List Char) : Prop :=
  ∃ tw ws sep tail,
    ((line.drop (min 3 (line.takeWhile (fun c => c = '*')).length)).dropWhile
        jsIsSpace) = tw ++ ws ++ sep :: tail ∧
    tw.map toLowerC = t.map toLowerC ∧
    (∀ c ∈ ws, jsIsSpace c = true) ∧
    (sep = ':' ∨ sep = '.') ∧ tail ≠ []

/-!
Context resolution and the cloze card builder (main.ts
getMostRelevantHeader, generateContextualClozeCards).
-/

/-- Header text of one raw line, per the scan in getMostRelevantHeader: the
line is trimmed; if it starts with one to six hash marks followed by
whitespace and some further text, that text with leading whitespace removed
is the header (a trimmed line never ends in whitespace, so the trailing
group of the regex is automatically non-empty). -/
def headerText? (raw : List Char) : Option (List Char) :=
  let t := trimL raw
  let hs := (t.takeWhile (fun c => c = '#')).length
  if 1 ≤ hs ∧ hs ≤ 6 then
    match t.drop hs with
    | c :: rest => if jsIsSpace c then some ((c :: rest).dropWhile jsIsSpace) else none
    | [] => none
  else none

/-- Backward scan of getMostRelevantHeader: from the line just above the
target index upward, the first line parsing as a header wins. -/
def findHeaderAbove (lines : List (List Char)) : Nat → Option (List Char)
  | 0 => none
  | i + 1 =>
    match headerText? (lines.getD i []) with
    | some h => some h
    | none => findHeaderAbove lines i

/-- Model of main.ts getMostRelevantHeader: locate the first line containing
the target text, then scan upward for the nearest header line. -/
def getMostRelevantHeader (content target : List Char) : Option (List Char) :=
  let lines := splitLines content
  match lines.findIdx? (fun line => containsL target line) with
  | none => none
  | some idx => findHeaderAbove lines idx

/-- Replacement of the first occurrence of pat by repl, matching
String.prototype.replace with a string pattern (the model ignores the
dollar-escape forms of the replacement string, which the pipeline never
produces with braces and which therefore cannot affect the marker counts
proved below). -/
def replaceFirst (l pat repl : List Char) : List Char :=
  match l with
  | [] => if pat.isEmpty then repl else []
  | c :: cs =>
    if startsWithL pat (c :: cs) then repl ++ (c :: cs).drop pat.length
    else c :: replaceFirst cs pat repl

/-- Card kinds produced by the pipeline (gemini-service.ts QuizQuestion
type field). -/
inductive QKind
  | cloze
  | shortAnswer
  | multipleChoice
  deriving DecidableEq, Repr

/-- The QuizQuestion record of gemini-service.ts, with strings as character
lists. -/
structure QuizQuestion where
  qtype : QKind
  question : List Char
  answer : List Char
  clozeText : Option (List Char)
  explanation : Option (List Char)
  options : Option (List (List Char))
  deriving DecidableEq, Repr

/-- Model of main.ts generateContextualClozeCards: for each highlight, the
first line containing it is rewritten with the cloze marker around the
delimiter-stripped text, a filename-and-header context block is prepended,
and a cloze card is produced; highlights that no longer occur in the
document are silently dropped. -/
def generateContextualClozeCards (content : List Char)
    (highlights : List (List Char)) (filename : List Char) :
    List QuizQuestion :=
  let contentLines := splitLines content
  highlights.filterMap (fun highlight =>
    let cleanHighlight := stripEqEq highlight
    match contentLines.find? (fun line => containsL highlight line) with
    | none => none
    | some targetLine =>
      let contextString := filename ++
        (match getMostRelevantHeader content highlight with
         | some hd => '\n' :: '-' :: '>' :: ' ' :: hd
         | none => [])
      let clozeText := replaceFirst targetLine highlight
        (('\x7b' :: '\x7b' :: 'c' :: '1' :: ':' :: ':' :: cleanHighlight) ++
          ['\x7d', '\x7d'])
      let contextualClozeText := contextString ++ ('\n' :: ' ' :: clozeText)
      some { qtype := QKind.cloze, question := contextualClozeText,
             answer := cleanHighlight, clozeText := some contextualClozeText,
             explanation := none, options := none })

/-!
Similarity check (anki-connect AnkiConnectService.isContentSimilar) and the
reconciliation step of AnkiDirectExporter.processQuestionGroup.
-/

/-- Collapse every run of consecutive spaces to a single space (second
stage of the normalization regex replacing runs of whitespace). -/
def squeezeSpaces : List Char → List Char
  | [] => []
  | [c] => [c]
  | a :: b :: rest =>
    if a = ' ' ∧ b = ' ' then squeezeSpaces (b :: rest)
    else a :: squeezeSpaces (b :: rest)

/-- Normalization of isContentSimilar: lower-case, replace every character
that is neither a word character nor whitespace by a space, collapse
whitespace runs to single spaces, trim. -/
def normalizeContent (s : List Char) : List Char :=
  trimL (squeezeSpaces
    (((s.map toLowerC).map
        (fun c => if isWordChar c || jsIsSpace c then c else ' ')).map
      (fun c => if jsIsSpace c then ' ' else c)))

/-- Model of AnkiConnectService.isContentSimilar: equal after normalization,
or mutual containment when both normalized strings exceed twenty
characters. -/
def isContentSimilar (content1 content2 : List Char) : Bool :=
  let norm1 := normalizeContent content1
  let norm2 := normalizeContent content2
  if norm1 = norm2 then true
  else if norm1.length > 20 ∧ norm2.length > 20 then
    containsL norm2 norm1 || containsL norm1 norm2
  else false

/-- The AnkiNote record of anki-connect (deck and tags carried along
unchanged by the reconciliation logic modelled here). -/
structure AnkiNote where
  deckName : List Char
  modelName : List Char
  fields : List (List Char × List Char)
  tags : List (List Char)
  deriving DecidableEq, Repr

/-- Field lookup modelling fields[key] followed by the JavaScript
default-to-empty-string idiom (both a missing key and an empty value give
the empty string). -/
def lookupField (fields : List (List Char × List Char)) (key : List Char) :
    List Char :=
  (fields.lookup key).getD []

/-- One entry of findMatchingNotesInfo: a possibly-missing note id and the
fields fetched for the matched note. -/
structure NoteMatchInfo where
  noteId : Option Nat
  existingFields : Option (List (List Char × List Char))
  deriving DecidableEq, Repr

/-- The existing-note behavior setting of AnkiConnectSettings. -/
inductive NoteBehavior
  | skip
  | update
  | create
  deriving DecidableEq, Repr

/-- Content comparison of processQuestionGroup deciding whether the new
note differs from the matched existing note: cloze notes compare the Text
field, other notes compare both Front and Back. -/
def noteDiffers (note : AnkiNote) (existing : List (List Char × List Char)) :
    Bool :=
  if note.modelName = ['C', 'l', 'o', 'z', 'e'] then
    !(isContentSimilar (lookupField existing ['T', 'e', 'x', 't'])
      (lookupField note.fields ['T', 'e', 'x', 't']))
  else
    !(isContentSimilar (lookupField existing ['F', 'r', 'o', 'n', 't'])
        (lookupField note.fields ['F', 'r', 'o', 'n', 't'])) ||
    !(isContentSimilar (lookupField existing ['B', 'a', 'c', 'k'])
        (lookupField note.fields ['B', 'a', 'c', 'k']))

/-- Effect of processing one note of a question group: the notes scheduled
for bulk creation, the updateNoteFields calls issued (note id and field
map), and the counter increments. -/
structure GroupStep where
  creates : List AnkiNote
  updates : List (Nat × List (List Char × List Char))
  updatedCount : Nat
  skippedCount : Nat
  failedCount : Nat
  errors : List (List Char)
  deriving DecidableEq, Repr

/-- Step with no effect. -/
def emptyStep : GroupStep := ⟨[], [], 0, 0, 0, []⟩

/-- Model of the body of the classification loop of
AnkiDirectExporter.processQuestionGroup for one (note, match) pair.  The
source guards on the truthiness of match.noteId, so a zero id is treated as
no match.  updOk tells whether the updateNoteFields call for a given id
succeeds; the call itself is recorded in updates in either case, mirroring
AnkiConnectService.updateNoteFields being invoked exactly once there. -/
def processNote (behavior : NoteBehavior) (updOk : Nat → Bool)
    (note : AnkiNote) (m : NoteMatchInfo) : GroupStep :=
  match m.noteId with
  | some id =>
    if id = 0 then { emptyStep with creates := [note] }
    else
      let existing := m.existingFields.getD []
      match behavior with
      | NoteBehavior.create => { emptyStep with creates := [note] }
      | NoteBehavior.skip =>
        { emptyStep with skippedCount := 1 }
      | NoteBehavior.update =>
        if noteDiffers note existing = false then
          { emptyStep with skippedCount := 1 }
        else
          let fieldsToUpdate :=
            if note.modelName = ['C', 'l', 'o', 'z', 'e'] then
              [(['E', 'x', 't', 'r', 'a'],
                lookupField note.fields ['E', 'x', 't', 'r', 'a'])]
            else
              [(['B', 'a', 'c', 'k'],
                lookupField note.fields ['B', 'a', 'c', 'k'])]
          if updOk id then
            { emptyStep with updates := [(id, fieldsToUpdate)],
                             updatedCount := 1 }
          else
            { emptyStep with updates := [(id, fieldsToUpdate)],
                             failedCount := 1,
                             errors := [['u', 'p', 'd', 'a', 't', 'e'] ++
                               [' ', 'f', 'a', 'i', 'l', 'e', 'd']] }
  | none => { emptyStep with creates := [note] }

/-- Pointwise sum of two steps, concatenating the recorded calls in
processing order. -/
def mergeStep (a b : GroupStep) : GroupStep :=
  ⟨a.creates ++ b.creates, a.updates ++ b.updates,
   a.updatedCount + b.updatedCount, a.skippedCount + b.skippedCount,
   a.failedCount + b.failedCount, a.errors ++ b.errors⟩

/-- Classification loop of processQuestionGroup over the zipped notes and
match results, in order. -/
def processGroupNotes (behavior : NoteBehavior) (updOk : Nat → Bool)
    (pairs : List (AnkiNote × NoteMatchInfo)) : GroupStep :=
  pairs.foldr (fun p acc => mergeStep (processNote behavior updOk p.1 p.2) acc)
    emptyStep

/-!
Bulk creation with per-record fallback (anki-connect
AnkiConnectService.addNotes) and the result counting of
processQuestionGroup.
-/

/-- Response of one addNote request: the error string of the AnkiConnect
envelope (absent on success) and the resulting note id. -/
structure SingleAddResponse where
  error : Option (List Char)
  result : Option Nat
  deriving DecidableEq, Repr

/-- Model of AnkiConnectService.addNotes.  bulk is the outcome of the
addNotes request: some rs when the bulk call answers, none when it fails
(error in the envelope or a thrown connection error).  On bulk failure each
note is submitted individually through single (indexed by position); a
response carrying an error yields null whether or not the message mentions
a duplicate (the duplicate branch pushes null directly, any other error is
thrown and caught by the per-note handler which also pushes null), and a
clean response yields its result. -/
def addNotesModel (bulk : Option (List (Option Nat)))
    (single : Nat → SingleAddResponse) (notes : List AnkiNote) :
    List (Option Nat) :=
  match bulk with
  | some rs => rs
  | none =>
    (List.range notes.length).map (fun i =>
      match (single i).error with
      | some e =>
        if containsL ['d', 'u', 'p', 'l', 'i', 'c', 'a', 't', 'e'] e then
          none
        else none
      | none => (single i).result)

/-- Result counting over the creation results in processQuestionGroup:
every null increments the failure count, every id the success count. -/
def countAddResults (rs : List (Option Nat)) : Nat × Nat :=
  rs.foldl (fun acc r =>
    match r with
    | none => (acc.1, acc.2 + 1)
    | some _ => (acc.1 + 1, acc.2)) (0, 0)

/-!
Batch AI enhancement (gemini-service.ts GeminiService.enhanceAllCards).
-/

/-- Span matched by the bracket regex of enhanceAllCards: from the first
opening square bracket to the last closing square bracket after it, greedy
across newlines; none when no such span exists. -/
def bracketSpan (t : List Char) : Option (List Char) :=
  match t.dropWhile (fun c => c ≠ '[') with
  | [] => none
  | _ :: rest =>
    match rest.reverse.dropWhile (fun c => c ≠ ']') with
    | [] => none
    | r => some ('[' :: r.reverse)

/-- Model of GeminiService.enhanceAllCards.  hasGenAI mirrors the genAI
guard, which throws before any enhancement work when the service is not
configured.  callResult is the outcome of the generateContent request plus
response decoding; parse stands for JSON.parse on the extracted bracket
span.  Every failure inside the guarded region returns the original
questions unchanged. -/
def enhanceAllCards (hasGenAI : Bool)
    (callResult : Except (List Char) (List Char))
    (parse : List Char → Except (List Char) (List QuizQuestion))
    (questions : List QuizQuestion) :
    Except (List Char) (List QuizQuestion) :=
  if hasGenAI = false then
    Except.error ['n', 'o', ' ', 'k', 'e', 'y']
  else
    match callResult with
    | Except.error _ => Except.ok questions
    | Except.ok text =>
      match bracketSpan text with
      | none => Except.ok questions
      | some s =>
        match parse s with
        | Except.error _ => Except.ok questions
        | Except.ok enhanced => Except.ok enhanced

/-!
Claim C5 and claim C10: the duplicate-similarity check.
-/

/-- Claim C5: the similarity check used for duplicate classification returns
true (duplicate) for two strings if and only if they are equal after
normalization (lower-casing, punctuation replaced by whitespace, whitespace
collapsed, trimmed), or one normalized string contains the other while both
normalized strings exceed twenty characters; every other pair is classified
as changed (false). -/
theorem C5_isContentSimilar_characterization (a b : List Char) :
    isContentSimilar a b = true ↔
      (normalizeContent a = normalizeContent b ∨
        ((normalizeContent a).length > 20 ∧ (normalizeContent b).length > 20 ∧
          (containsL (normalizeContent b) (normalizeContent a) = true ∨
            containsL (normalizeContent a) (normalizeContent b) = true))) := by
  by_cases h1 : normalizeContent a = normalizeContent b
  · simp [isContentSimilar, h1]
  · by_cases h2 : (normalizeContent a).length > 20 ∧
        (normalizeContent b).length > 20
    · simp only [isContentSimilar, if_neg h1, if_pos h2, Bool.or_eq_true]
      tauto
    · simp only [isContentSimilar, if_neg h1, if_neg h2]
      constructor
      · intro h; exact absurd h (by simp)
      · rintro (h | ⟨ha, hb, -⟩)
        · exact absurd h h1
        · exact absurd ⟨ha, hb⟩ h2

/-- Claim C10: the duplicate-similarity check is symmetric in its two
arguments. -/
theorem C10_isContentSimilar_symm (a b : List Char) :
    isContentSimilar a b = isContentSimilar b a := by
  by_cases h1 : normalizeContent a = normalizeContent b
  · have h1' : normalizeContent b = normalizeContent a := h1.symm
    simp only [isContentSimilar, if_pos h1, if_pos h1']
  · have h1' : ¬(normalizeContent b = normalizeContent a) := fun e => h1 e.symm
    by_cases h2 : (normalizeContent a).length > 20 ∧
        (normalizeContent b).length > 20
    · have h2' : (normalizeContent b).length > 20 ∧
          (normalizeContent a).length > 20 := ⟨h2.2, h2.1⟩
      simp [isContentSimilar, if_neg h1, if_neg h1', h2, h2', Bool.or_comm]
    · have h2' : ¬((normalizeContent b).length > 20 ∧
          (normalizeContent a).length > 20) := fun e => h2 ⟨e.2, e.1⟩
      simp [isContentSimilar, if_neg h1, if_neg h1', h2, h2']

/-!
Claim C9: highlight extraction on the reference input.
-/

/-- Claim C9: on the input a ==b== c ==d== highlight extraction returns
exactly two matches, the raw matched texts keep their delimiters, and the
delimiter-stripped answers are b and d. -/
theorem C9_extractHighlights_example :
    extractHighlights ("a ==b== c ==d==".toList) =
        ["==b==".toList, "==d==".toList] ∧
      (extractHighlights ("a ==b== c ==d==".toList)).map stripEqEq =
        ["b".toList, "d".toList] := by
  constructor <;> rfl

/-!
Claim C2: equivalence of the trigger regex with the amended general rule.
-/

theorem dropWhile_all_append {p : Char → Bool} {ws : List Char} {d : Char}
    {r : List Char} (hws : ∀ c ∈ ws, p c = true) (hd : p d = false) :
    (ws ++ d :: r).dropWhile p = d :: r := by
  induction ws with
  | nil => simp [List.dropWhile_cons, hd]
  | cons w wsr ih =>
    have hw := hws w (List.mem_cons_self _ _)
    simp only [List.cons_append, List.dropWhile_cons, hw, if_pos]
    exact ih (fun c hc => hws c (List.mem_cons_of_mem _ hc))

/-- Equivalence of the trigger-line matcher with the amended rule of claim
C2, for any trigger word that is non-empty and does not begin with an
asterisk (after lower-casing); every configured trigger word of the plugin
satisfies this. -/
theorem triggerMatchB_iff_ruleSpec (t line : List Char) (hne : t ≠ [])
    (hstar : ∀ c, t.head? = some c → toLowerC c ≠ '*') :
    triggerMatchB t line = true ↔ triggerRuleSpec t line := by
  unfold triggerMatchB triggerRegexTail triggerRuleSpec
  by_cases hgt : 3 < (line.takeWhile (fun c => c = '*')).length
  · simp only [if_pos hgt, Option.isSome_none]
    constructor
    · intro h; exact absurd h (by simp)
    · rintro ⟨tw, ws, sep, tail, hdec, hci, hws, hsep, -⟩
      exfalso
      have hmin : min 3 (line.takeWhile (fun c => c = '*')).length = 3 :=
        min_eq_left (le_of_lt hgt)
      rw [hmin] at hdec
      obtain ⟨s0, srest, hsplit⟩ : ∃ s0 srest,
          (line.takeWhile (fun c => c = '*')).drop 3 = s0 :: srest := by
        cases h : (line.takeWhile (fun c => c = '*')).drop 3 with
        | nil =>
          rw [List.drop_eq_nil_iff] at h
          omega
        | cons a b => exact ⟨a, b, rfl⟩
      have hs0 : s0 = '*' := by
        have hmem : s0 ∈ line.takeWhile (fun c => c = '*') :=
          mem_of_mem_drop (hsplit ▸ List.mem_cons_self _ _)
        simpa using List.mem_takeWhile_imp hmem
      have hdrop3 : line.drop 3 =
          s0 :: (srest ++ line.dropWhile (fun c => c = '*')) := by
        conv_lhs =>
          rw [← List.takeWhile_append_dropWhile (p := fun c => c = '*')
            (l := line)]
        rw [List.drop_append_of_le_length (le_of_lt hgt), hsplit]
        simp
      rw [hdrop3, hs0] at hdec
      rw [show List.dropWhile jsIsSpace
          ('*' :: (srest ++ line.dropWhile (fun c => c = '*'))) =
          '*' :: (srest ++ line.dropWhile (fun c => c = '*')) from by
        simp [List.dropWhile_cons, jsIsSpace]] at hdec
      cases tw with
      | nil =>
        simp only [List.nil_append] at hdec
        cases ws with
        | nil =>
          simp only [List.nil_append, List.cons.injEq] at hdec
          rcases hsep with rfl | rfl <;> simp at hdec
        | cons w wsr =>
          simp only [List.cons_append, List.cons.injEq] at hdec
          have := hws w (List.mem_cons_self _ _)
          rw [← hdec.1] at this
          simp [jsIsSpace] at this
      | cons c tws =>
        simp only [List.cons_append, List.cons.injEq] at hdec
        obtain ⟨t0, trest, rfl⟩ : ∃ t0 trest, t = t0 :: trest := by
          cases t with
          | nil => exact absurd rfl hne
          | cons x xs => exact ⟨x, xs, rfl⟩
        simp only [List.map_cons, List.cons.injEq] at hci
        have h1 : toLowerC c = toLowerC t0 := hci.1
        have h2 : c = '*' := hdec.1.symm
        have h3 : toLowerC '*' = '*' := by decide
        exact hstar t0 rfl (by rw [← h1, h2, h3])
  · have hle : (line.takeWhile (fun c => c = '*')).length ≤ 3 :=
      le_of_not_lt hgt
    have hmin : min 3 (line.takeWhile (fun c => c = '*')).length =
        (line.takeWhile (fun c => c = '*')).length := min_eq_right hle
    simp only [if_neg hgt, hmin]
    set l1 := (line.drop
        (line.takeWhile (fun c => c = '*')).length).dropWhile jsIsSpace
      with hl1
    constructor
    · intro h
      by_cases hci : (l1.take t.length).map toLowerC = t.map toLowerC
      · rw [if_pos hci] at h
        cases hm : (l1.drop t.length).dropWhile jsIsSpace with
        | nil => rw [hm] at h; simp at h
        | cons sep l4 =>
          rw [hm] at h
          have h2 : (if (sep = ':' ∨ sep = '.') ∧ l4 ≠ [] then some l4
              else none).isSome = true := h
          by_cases hcond : (sep = ':' ∨ sep = '.') ∧ l4 ≠ []
          · refine ⟨l1.take t.length,
              (l1.drop t.length).takeWhile jsIsSpace, sep, l4, ?_, hci, ?_,
              hcond.1, hcond.2⟩
            · conv_lhs => rw [← List.take_append_drop t.length l1]
              conv_lhs =>
                rw [← List.takeWhile_append_dropWhile (p := jsIsSpace)
                  (l := l1.drop t.length)]
              rw [hm]
              simp [List.append_assoc]
            · intro c hc; exact List.mem_takeWhile_imp hc
          · rw [if_neg hcond] at h2; simp at h2
      · rw [if_neg hci] at h; simp at h
    · rintro ⟨tw, ws, sep, tail, hdec, hci, hws, hsep, htne⟩
      have hlen : tw.length = t.length := by
        have := congrArg List.length hci
        simpa using this
      have hdec' : l1 = tw ++ (ws ++ sep :: tail) := by
        rw [hdec, List.append_assoc]
      have htake : l1.take t.length = tw := by
        rw [hdec', ← hlen]
        exact List.take_left _ _
      have hdrop : l1.drop t.length = ws ++ sep :: tail := by
        rw [hdec', ← hlen]
        exact List.drop_left _ _
      have hsepws : jsIsSpace sep = false := by
        rcases hsep with rfl | rfl <;> decide
      rw [if_pos (htake ▸ hci : (l1.take t.length).map toLowerC =
        t.map toLowerC)]
      rw [hdrop, dropWhile_all_append hws hsepws]
      show (if (sep = ':' ∨ sep = '.') ∧ tail ≠ [] then some tail
        else none).isSome = true
      rw [if_pos ⟨hsep, htne⟩]
      simp

/-- Claim C2, counterexample: the code rejects the line with closing
emphasis markers that the claim asserts it matches (the regex strips only
leading asterisks, so the two asterisks standing between the trigger word
and the colon make the match fail), and the code accepts whitespace between
the trigger word and the separator, which the claimed general rule, read
literally, excludes. -/
theorem C2_counterexample :
    triggerMatchB ("definition".toList) ("**definition**: a thing".toList) =
        false ∧
      triggerMatchB ("definition".toList) ("definition : x".toList) = true := by
  exact ⟨rfl, rfl⟩

/-- Claim C2 as amended: the trigger word definition does NOT match the line
with closing emphasis markers before the separator; it matches a plain
trigger line with captured answer a thing; it does not match
predefinition: x; and in general a line matches exactly when, after
stripping up to three leading asterisks and then leading whitespace, it
begins case-insensitively with the trigger word, followed by optional
whitespace, a colon or a period, and at least one further character. -/
theorem C2_amended :
    triggerMatchB ("definition".toList) ("**definition**: a thing".toList) =
        false ∧
      triggerMatchB ("definition".toList) ("definition: a thing".toList) =
        true ∧
      triggerCapturedAnswer ("definition".toList)
          ("definition: a thing".toList) = some ("a thing".toList) ∧
      triggerMatchB ("definition".toList) ("predefinition: x".toList) =
        false ∧
      ∀ line, triggerMatchB ("definition".toList) line = true ↔
        triggerRuleSpec ("definition".toList) line := by
  refine ⟨rfl, rfl, rfl, rfl, fun line => ?_⟩
  exact triggerMatchB_iff_ruleSpec _ line (by decide)
    (fun c hc => by simp at hc; subst hc; decide)

/-!
Claim C3: number of trigger matches per line.
-/

/-- Claim C3, counterexample: with the configured trigger list Foo, foo the
single line foo: x matches both triggers case-insensitively and the
extraction loop, having no break, pushes the line once per matching
trigger, so one line yields two trigger matches. -/
theorem C3_counterexample :
    checkForTriggerWords ["Foo".toList, "foo".toList] ("foo: x".toList) =
        ["foo: x".toList, "foo: x".toList] ∧
      (checkForTriggerWords ["Foo".toList, "foo".toList]
        ("foo: x".toList)).length = 2 := by
  exact ⟨rfl, rfl⟩

/-- Claim C3 as amended: trigger extraction produces at most one match per
line and per configured trigger word; the number of matches is the sum,
over the document lines, of the number of configured trigger words matching
that line (so a line matched by several configured triggers is returned
once per matching trigger), and every match is a line of the document
matched by some configured trigger. -/
theorem C3_amended (triggers : List (List Char)) (content : List Char) :
    (checkForTriggerWords triggers content).length =
        ((splitLines content).map
          (fun l => (triggers.filter (fun t => triggerMatchB t l)).length)).sum ∧
      ∀ l ∈ checkForTriggerWords triggers content,
        l ∈ splitLines content ∧ ∃ t ∈ triggers, triggerMatchB t l = true := by
  constructor
  · simp only [checkForTriggerWords, List.length_flatMap]
    congr 1
    apply List.map_congr_left
    intro line hline
    simp
  · intro l hl
    simp only [checkForTriggerWords, List.mem_flatMap] at hl
    obtain ⟨line, hline, hmem⟩ := hl
    simp only [List.mem_map] at hmem
    obtain ⟨t, ht, rfl⟩ := hmem
    exact ⟨hline, t, (List.mem_filter.mp ht).1,
      (List.mem_filter.mp ht).2⟩

/-!
Claim C4: characterization of cue-line extraction.
-/

/-- Characterization of the cue regex of extractRemNoteCues: a line matches
exactly when it decomposes as a possibly-empty colon-free prefix, two
colons, and a non-empty colon-free suffix. -/
theorem cueRegexB_iff (l : List Char) :
    cueRegexB l = true ↔ ∃ a b, l = a ++ [':', ':'] ++ b ∧
      (∀ c ∈ a, c ≠ ':') ∧ b ≠ [] ∧ (∀ c ∈ b, c ≠ ':') := by
  constructor
  · intro h
    unfold cueRegexB at h
    simp only [Bool.and_eq_true, Bool.not_eq_true', List.isEmpty_eq_false,
      List.all_eq_true] at h
    obtain ⟨⟨h1, h2⟩, h3⟩ := h
    obtain ⟨r, hr⟩ := (startsWithL_iff _ _).mp h1
    refine ⟨l.takeWhile (fun c => c ≠ ':'), r, ?_, ?_, ?_, ?_⟩
    · conv_lhs =>
        rw [← List.takeWhile_append_dropWhile (p := fun c => c ≠ ':')
          (l := l), hr]
      rw [List.append_assoc]
    · intro c hc
      simpa using List.mem_takeWhile_imp hc
    · rw [hr] at h2
      simpa using h2
    · intro c hc
      have := h3 c (by rw [hr]; simpa using hc)
      simpa using this
  · rintro ⟨a, b, rfl, ha, hb, hball⟩
    have hdw : ((a ++ [':', ':'] ++ b).dropWhile (fun c => c ≠ ':')) =
        ':' :: ':' :: b := by
      rw [List.append_assoc]
      exact dropWhile_all_append
        (fun c hc => by simpa using ha c hc) (by simp)
    unfold cueRegexB
    rw [hdw]
    simp only [Bool.and_eq_true, Bool.not_eq_true', List.isEmpty_eq_false,
      List.all_eq_true]
    refine ⟨⟨by simp [startsWithL], by simpa using hb⟩, ?_⟩
    intro c hc
    simpa using hball c (by simpa using hc)

/-- Claim C4, counterexample: the line made of a double colon followed by
abc is returned by cue-line extraction although its prefix is empty, so the
claimed characterization (which demands a non-empty prefix) does not hold
of the extraction. -/
theorem C4_counterexample :
    extractRemNoteCues ("::abc".toList) = ["::abc".toList] ∧
      ¬ claimedCuePred ("::abc".toList) := by
  refine ⟨rfl, ?_⟩
  rintro ⟨⟨a, b, hdec, hane, -⟩, -, -⟩
  cases a with
  | nil => exact hane rfl
  | cons a0 as =>
    rcases as with _ | ⟨a1, _ | ⟨a2, _ | ⟨a3, _ | ⟨a4, as4⟩⟩⟩⟩ <;>
      simp [String.toList] at hdec

/-- Claim C4 as amended: cue-line extraction returns exactly the document
lines that decompose as a possibly-empty colon-free prefix, a double-colon
separator, and a non-empty colon-free suffix, and that carry no highlight
delimiter; the reference line What is X::It is Y is returned and splits
into prompt What is X and answer It is Y, while a::b::c is excluded. -/
theorem C4_amended :
    (∀ content l, l ∈ extractRemNoteCues content ↔
        l ∈ splitLines content ∧ amendedCuePred l) ∧
      extractRemNoteCues ("What is X::It is Y".toList) =
        ["What is X::It is Y".toList] ∧
      cueQAPair ("What is X::It is Y".toList) =
        some ("What is X".toList, "It is Y".toList) ∧
      extractRemNoteCues ("a::b::c".toList) = [] := by
  refine ⟨?_, rfl, rfl, rfl⟩
  intro content l
  simp only [extractRemNoteCues, List.mem_filter, Bool.not_eq_true',
    amendedCuePred]
  constructor
  · rintro ⟨⟨hmem, hcue⟩, heq⟩
    exact ⟨hmem, (cueRegexB_iff l).mp hcue, heq⟩
  · rintro ⟨hmem, hpred, heq⟩
    exact ⟨⟨hmem, (cueRegexB_iff l).mpr hpred⟩, heq⟩

/-!
Claim C1: fields touched by the update policy.
-/

/-- Cloze note used to exercise the update path of processNote: its Text
field differs from the matched existing note under the similarity check. -/
def c1Note : AnkiNote :=
  ⟨"definition".toList, "Cloze".toList,
   [("Text".toList, "ctx \x7b\x7bc1::a\x7d\x7d".toList),
    ("Extra".toList, "note".toList)], []⟩

/-- Matched existing record for c1Note: a non-zero note id and a Text field
that the similarity check classifies as changed. -/
def c1Match : NoteMatchInfo :=
  ⟨some 5, some [("Text".toList, "completely different other text".toList)]⟩

/-- Claim C1, counterexample: for a cloze card classified as changed with a
matched record, the single updateFields call carries the field map holding
only the Extra field; it does not contain the cloze free-text field Text,
contradicting the claim that the map holds the answer-bearing free-text
field of cloze records. -/
theorem C1_counterexample :
    (processNote NoteBehavior.update (fun _ => true) c1Note c1Match).updates =
        [(5, [("Extra".toList, "note".toList)])] ∧
      List.lookup ("Text".toList)
          [(("Extra".toList : List Char), ("note".toList : List Char))] =
        none := by
  exact ⟨rfl, rfl⟩

/-- Claim C1 as amended: under the update policy, for every card classified
as changed whose matching record was found (non-zero note id), the
reconciler makes exactly one updateFields call, whose field map contains
only the Extra field for cloze records and only the Back field for
front-back records, and never contains the prompt Front field nor the cloze
free-text field Text. -/
theorem C1_amended (updOk : Nat → Bool) (note : AnkiNote) (m : NoteMatchInfo)
    (id : Nat) (hid : m.noteId = some id) (hnz : id ≠ 0)
    (hdiff : noteDiffers note (m.existingFields.getD []) = true) :
    (processNote NoteBehavior.update updOk note m).updates =
        [(id,
          if note.modelName = ['C', 'l', 'o', 'z', 'e'] then
            [(['E', 'x', 't', 'r', 'a'],
              lookupField note.fields ['E', 'x', 't', 'r', 'a'])]
          else
            [(['B', 'a', 'c', 'k'],
              lookupField note.fields ['B', 'a', 'c', 'k'])])] ∧
      ∀ p ∈ (processNote NoteBehavior.update updOk note m).updates,
        List.lookup ['F', 'r', 'o', 'n', 't'] p.2 = none ∧
        List.lookup ['T', 'e', 'x', 't'] p.2 = none := by
  have hupd : (processNote NoteBehavior.update updOk note m).updates =
      [(id,
        if note.modelName = ['C', 'l', 'o', 'z', 'e'] then
          [(['E', 'x', 't', 'r', 'a'],
            lookupField note.fields ['E', 'x', 't', 'r', 'a'])]
        else
          [(['B', 'a', 'c', 'k'],
            lookupField note.fields ['B', 'a', 'c', 'k'])])] := by
    simp only [processNote, hid]
    rw [if_neg hnz]
    have hd' : ¬(noteDiffers note (m.existingFields.getD []) = false) := by
      simp [hdiff]
    rw [if_neg hd']
    cases hu : updOk id <;> simp
  refine ⟨hupd, ?_⟩
  intro p hp
  rw [hupd] at hp
  simp only [List.mem_singleton] at hp
  subst hp
  by_cases hm : note.modelName = ['C', 'l', 'o', 'z', 'e'] <;>
    simp [hm, List.lookup]

/-- Witness for claim C1: the amended theorem applied to the concrete cloze
note and match above. -/
theorem C1_amended_witness :
    (processNote NoteBehavior.update (fun _ => true) c1Note c1Match).updates =
        [(5, [("Extra".toList, "note".toList)])] ∧
      ∀ p ∈ (processNote NoteBehavior.update (fun _ => true) c1Note
          c1Match).updates,
        List.lookup ("Front".toList) p.2 = none ∧
        List.lookup ("Text".toList) p.2 = none := by
  have h := C1_amended (fun _ => true) c1Note c1Match 5 rfl
    (by decide) (by rfl)
  exact ⟨h.1, h.2⟩

/-!
Claim C7: per-record fallback after a failed bulk creation.
-/

/-- Claim C7: if the bulk creation call fails wholesale for a five-card
batch and exactly the third individual creation is rejected (as a
duplicate), the fallback path yields one result per note, the result
counting reports four successes and one failure, the third entry is the
only null, and the other four records carry created note ids; the duplicate
rejection is recorded as a failed entry of the result list instead of being
thrown. -/
theorem C7_addNotes_fallback (notes : List AnkiNote)
    (single : Nat → SingleAddResponse)
    (h5 : notes.length = 5)
    (hdup : ∃ e, (single 2).error = some e ∧
      containsL ("duplicate".toList) e = true)
    (hok : ∀ i, i < 5 → i ≠ 2 → (single i).error = none ∧
      (single i).result.isSome = true) :
    (addNotesModel none single notes).length = 5 ∧
      countAddResults (addNotesModel none single notes) = (4, 1) ∧
      (addNotesModel none single notes).getD 2 none = none ∧
      ∀ i, i < 5 → i ≠ 2 →
        ((addNotesModel none single notes).getD i none).isSome = true := by
  obtain ⟨e, he, -⟩ := hdup
  obtain ⟨h0e, h0r⟩ := hok 0 (by omega) (by omega)
  obtain ⟨h1e, h1r⟩ := hok 1 (by omega) (by omega)
  obtain ⟨h3e, h3r⟩ := hok 3 (by omega) (by omega)
  obtain ⟨h4e, h4r⟩ := hok 4 (by omega) (by omega)
  obtain ⟨r0, hr0⟩ := Option.isSome_iff_exists.mp h0r
  obtain ⟨r1, hr1⟩ := Option.isSome_iff_exists.mp h1r
  obtain ⟨r3, hr3⟩ := Option.isSome_iff_exists.mp h3r
  obtain ⟨r4, hr4⟩ := Option.isSome_iff_exists.mp h4r
  have hlist : addNotesModel none single notes =
      [some r0, some r1, none, some r3, some r4] := by
    unfold addNotesModel
    rw [h5]
    have hrange : List.range 5 = [0, 1, 2, 3, 4] := by rfl
    rw [hrange]
    simp [h0e, h1e, he, h3e, h4e, hr0, hr1, hr3, hr4, ite_self]
  rw [hlist]
  refine ⟨rfl, rfl, rfl, ?_⟩
  intro i hi hne
  interval_cases i
  · rfl
  · rfl
  · exact absurd rfl hne
  · rfl
  · rfl

/-- Note value used by the claim C7 witness (its payload is irrelevant to
the fallback logic). -/
def c7Note : AnkiNote := ⟨"definition".toList, "Basic".toList, [], []⟩

/-- Witness for claim C7: the fallback theorem applied to a concrete
five-note batch whose third individual creation is rejected as a
duplicate. -/
theorem C7_addNotes_fallback_witness :
    countAddResults (addNotesModel none
        (fun i => if i = 2 then
          SingleAddResponse.mk
            (some ("cannot create note because it is a duplicate".toList))
            none
         else SingleAddResponse.mk none (some (i + 10)))
        [c7Note, c7Note, c7Note, c7Note, c7Note]) = (4, 1) := by
  have h := C7_addNotes_fallback [c7Note, c7Note, c7Note, c7Note, c7Note]
    (fun i => if i = 2 then
      SingleAddResponse.mk
        (some ("cannot create note because it is a duplicate".toList)) none
     else SingleAddResponse.mk none (some (i + 10)))
    rfl
    ⟨"cannot create note because it is a duplicate".toList, rfl, by decide⟩
    (by decide)
  exact h.2.1

/-!
Claim C8: the enhancement error path.
-/

/-- Claim C8: with the service configured, whenever the batch enhancement
call fails, or its response carries no bracketed span, or the extracted
span does not parse, enhanceAllCards returns the original card list
unchanged inside a success value, never propagating the error. -/
theorem C8_enhanceAllCards_error_path
    (parse : List Char → Except (List Char) (List QuizQuestion))
    (questions : List QuizQuestion)
    (callResult : Except (List Char) (List Char))
    (hfail : (∃ e, callResult = Except.error e) ∨
      (∃ t, callResult = Except.ok t ∧
        (bracketSpan t = none ∨
          ∃ s e, bracketSpan t = some s ∧ parse s = Except.error e))) :
    enhanceAllCards true callResult parse questions = Except.ok questions := by
  rcases hfail with ⟨e, rfl⟩ | ⟨t, rfl, hcase⟩
  · rfl
  · rcases hcase with hnone | ⟨s, e, hsome, herr⟩
    · simp [enhanceAllCards, hnone]
    · simp [enhanceAllCards, hsome, herr]

/-- Card value used by the claim C8 witness. -/
def c8Question : QuizQuestion :=
  ⟨QKind.shortAnswer, "q".toList, "a".toList, none, none, none⟩

/-- Witness for claim C8: a failed enhancement call leaves a concrete
one-card list unchanged. -/
theorem C8_enhanceAllCards_error_path_witness :
    enhanceAllCards true (Except.error ("network".toList))
        (fun _ => Except.error []) [c8Question] =
      Except.ok [c8Question] :=
  C8_enhanceAllCards_error_path (fun _ => Except.error []) [c8Question]
    (Except.error ("network".toList)) (Or.inl ⟨_, rfl⟩)

/-!
Claim C6: marker counting for the cloze card builder.
-/

theorem mem_of_mem_stripEqEq {l : List Char} {c : Char}
    (h : c ∈ stripEqEq l) : c ∈ l := by
  induction l using stripEqEq.induct with
  | case1 => simp [stripEqEq] at h
  | case2 d => simpa [stripEqEq] using h
  | case3 c1 c2 rest heq ih =>
    rw [stripEqEq, if_pos heq] at h
    exact List.mem_cons_of_mem _ (List.mem_cons_of_mem _ (ih h))
  | case4 c1 c2 rest heq ih =>
    rw [stripEqEq, if_neg heq] at h
    rcases List.mem_cons.mp h with rfl | h'
    · exact List.mem_cons_self _ _
    · exact List.mem_cons_of_mem _ (ih h')


theorem startsWithL_marker_cons_false {a : Char} {l : List Char}
    (h : a ≠ '\x7b') :
    startsWithL ['\x7b', '\x7b', 'c'] (a :: l) = false := by
  cases hsw : startsWithL ['\x7b', '\x7b', 'c'] (a :: l) with
  | false => rfl
  | true =>
    exfalso
    obtain ⟨r, hr⟩ := (startsWithL_iff _ _).mp hsw
    have hr' : a :: l = '\x7b' :: ('\x7b' :: 'c' :: r) := hr
    exact h (List.cons.inj hr').1

/-- Occurrences of the marker prefix in a brace-free block before a
remainder are exactly the occurrences in the remainder. -/
theorem countOcc_append_of_brace_free {x r : List Char}
    (hx : ∀ c ∈ x, c ≠ '\x7b') :
    countOcc ['\x7b', '\x7b', 'c'] (x ++ r) =
      countOcc ['\x7b', '\x7b', 'c'] r := by
  induction x with
  | nil => simp
  | cons a as ih =>
    have ha : a ≠ '\x7b' := hx a (List.mem_cons_self _ _)
    simp only [List.cons_append, countOcc, startsWithL_marker_cons_false ha,
      Bool.false_eq_true, if_false, List.append_eq]
    rw [ih (fun c hc => hx c (List.mem_cons_of_mem _ hc))]
    omega

theorem countOcc_eq_zero_of_brace_free {x : List Char}
    (hx : ∀ c ∈ x, c ≠ '\x7b') :
    countOcc ['\x7b', '\x7b', 'c'] x = 0 := by
  have := countOcc_append_of_brace_free (r := []) hx
  simpa [countOcc] using this

theorem countOcc_marker_cons (rest : List Char) :
    countOcc ['\x7b', '\x7b', 'c'] ('\x7b' :: '\x7b' :: 'c' :: rest) =
      1 + countOcc ['\x7b', '\x7b', 'c'] rest := by
  have h1 : startsWithL ['\x7b', '\x7b', 'c']
      ('\x7b' :: '\x7b' :: 'c' :: rest) = true := by
    simp [startsWithL]
  have h2 : startsWithL ['\x7b', '\x7b', 'c'] ('\x7b' :: 'c' :: rest) =
      false := by
    cases hsw : startsWithL ['\x7b', '\x7b', 'c'] ('\x7b' :: 'c' :: rest) with
    | false => rfl
    | true =>
      exfalso
      obtain ⟨r, hr⟩ := (startsWithL_iff _ _).mp hsw
      have hr' : '\x7b' :: 'c' :: rest =
          '\x7b' :: '\x7b' :: 'c' :: r := hr
      have hcc : 'c' = '\x7b' := (List.cons.inj (List.cons.inj hr').2).1
      exact absurd hcc (by decide)
  have h3 : startsWithL ['\x7b', '\x7b', 'c'] ('c' :: rest) = false :=
    startsWithL_marker_cons_false (by decide)
  simp only [countOcc, h1, h2, h3, Bool.false_eq_true, if_false, if_true]
  omega

/-- Decomposition of a first-occurrence replacement: when the pattern does
occur, the result is a prefix, the replacement, and a suffix, and both the
prefix and the suffix draw their characters from the original list. -/
theorem replaceFirst_decomp {l pat : List Char} (repl : List Char)
    (h : containsL pat l = true) :
    ∃ x y, replaceFirst l pat repl = x ++ repl ++ y ∧
      (∀ c ∈ x, c ∈ l) ∧ (∀ c ∈ y, c ∈ l) := by
  induction l with
  | nil =>
    simp only [containsL, List.isEmpty_iff] at h
    refine ⟨[], [], ?_, by simp, by simp⟩
    simp [replaceFirst, h]
  | cons c cs ih =>
    by_cases hs : startsWithL pat (c :: cs) = true
    · refine ⟨[], (c :: cs).drop pat.length, ?_, by simp, ?_⟩
      · simp [replaceFirst, hs]
      · intro d hd; exact mem_of_mem_drop hd
    · have h' : containsL pat cs = true := by
        have hcc : containsL pat (c :: cs) = true := h
        rw [containsL, Bool.or_eq_true] at hcc
        rcases hcc with hcc | hcc
        · exact absurd hcc hs
        · exact hcc
      obtain ⟨x, y, hxy, hx, hy⟩ := ih h'
      refine ⟨c :: x, y, ?_, ?_,
        fun d hd => List.mem_cons_of_mem _ (hy d hd)⟩
      · simp only [replaceFirst, hs, Bool.false_eq_true, if_false]
        rw [hxy]
        simp
      · intro d hd
        rcases List.mem_cons.mp hd with rfl | hd
        · exact List.mem_cons_self _ _
        · exact List.mem_cons_of_mem _ (hx d hd)

theorem mem_of_headerText? {raw h : List Char}
    (hh : headerText? raw = some h) {ch : Char} (hc : ch ∈ h) : ch ∈ raw := by
  simp only [headerText?] at hh
  by_cases hcond : 1 ≤ ((trimL raw).takeWhile (fun c => c = '#')).length ∧
      ((trimL raw).takeWhile (fun c => c = '#')).length ≤ 6
  · rw [if_pos hcond] at hh
    cases hm : (trimL raw).drop
        ((trimL raw).takeWhile (fun c => c = '#')).length with
    | nil => rw [hm] at hh; exact absurd hh (by simp)
    | cons d rest =>
      rw [hm] at hh
      have hh2 : (if jsIsSpace d = true then
          some (List.dropWhile jsIsSpace (d :: rest)) else none) =
          some h := hh
      by_cases hws : jsIsSpace d = true
      · rw [if_pos hws] at hh2
        obtain rfl := Option.some.inj hh2
        have h1 : ch ∈ d :: rest := mem_of_mem_dropWhile hc
        have h2 : ch ∈ (trimL raw).drop
            ((trimL raw).takeWhile (fun c => c = '#')).length := hm ▸ h1
        exact mem_of_mem_trimL (mem_of_mem_drop h2)
      · rw [if_neg hws] at hh2; exact absurd hh2 (by simp)
  · rw [if_neg hcond] at hh; exact absurd hh (by simp)

theorem findHeaderAbove_some {lines : List (List Char)} :
    ∀ {idx : Nat} {hd : List Char}, findHeaderAbove lines idx = some hd →
      ∃ i, headerText? (lines.getD i []) = some hd := by
  intro idx
  induction idx with
  | zero => intro hd h; simp [findHeaderAbove] at h
  | succ i ih =>
    intro hd h
    unfold findHeaderAbove at h
    cases hm : headerText? (lines.getD i []) with
    | some h0 =>
      rw [hm] at h
      obtain rfl := Option.some.inj h
      exact ⟨i, hm⟩
    | none =>
      rw [hm] at h
      exact ih h

theorem mem_of_getD_lines {lines : List (List Char)} {i : Nat} {c : Char}
    (hc : c ∈ lines.getD i []) : ∃ l ∈ lines, c ∈ l := by
  by_cases hi : i < lines.length
  · rw [List.getD_eq_getElem _ _ hi] at hc
    exact ⟨lines[i], List.getElem_mem hi, hc⟩
  · rw [List.getD_eq_default _ _ (le_of_not_lt hi)] at hc
    simp at hc

theorem mem_of_getMostRelevantHeader {content target hd : List Char}
    (hh : getMostRelevantHeader content target = some hd) {c : Char}
    (hc : c ∈ hd) : c ∈ content := by
  simp only [getMostRelevantHeader] at hh
  cases hidx : (splitLines content).findIdx?
      (fun line => containsL target line) with
  | none => rw [hidx] at hh; exact absurd hh (by simp)
  | some idx =>
    rw [hidx] at hh
    obtain ⟨i, hi⟩ := findHeaderAbove_some hh
    obtain ⟨l, hl, hcl⟩ := mem_of_getD_lines (mem_of_headerText? hi hc)
    exact mem_of_mem_splitLines hl hcl

/-- Marker count of a cloze body assembled from brace-free surroundings:
exactly one marker, and it is the c1 marker. -/
theorem cloze_body_marker_count {ctx x y clean : List Char}
    (hctx : ∀ c ∈ ctx, c ≠ '\x7b') (hx : ∀ c ∈ x, c ≠ '\x7b')
    (hy : ∀ c ∈ y, c ≠ '\x7b') (hclean : ∀ c ∈ clean, c ≠ '\x7b') :
    countOcc ['\x7b', '\x7b', 'c']
        (ctx ++ ('\n' :: ' ' ::
          (x ++ (('\x7b' :: '\x7b' :: 'c' :: '1' :: ':' :: ':' :: clean) ++
            ['\x7d', '\x7d']) ++ y))) = 1 ∧
      containsL ['\x7b', '\x7b', 'c', '1', ':', ':']
        (ctx ++ ('\n' :: ' ' ::
          (x ++ (('\x7b' :: '\x7b' :: 'c' :: '1' :: ':' :: ':' :: clean) ++
            ['\x7d', '\x7d']) ++ y))) = true := by
  have hshape : ctx ++ ('\n' :: ' ' ::
      (x ++ (('\x7b' :: '\x7b' :: 'c' :: '1' :: ':' :: ':' :: clean) ++
        ['\x7d', '\x7d']) ++ y)) =
      (ctx ++ ('\n' :: ' ' :: x)) ++
        ('\x7b' :: '\x7b' :: 'c' ::
          ('1' :: ':' :: ':' :: (clean ++ (['\x7d', '\x7d'] ++ y)))) := by
    simp [List.append_assoc]
  have hfreeA : ∀ c ∈ ctx ++ ('\n' :: ' ' :: x), c ≠ '\x7b' := by
    intro c hc hEq
    subst hEq
    have h1 : ('\x7b' : Char) ∉ ctx := fun h => hctx _ h rfl
    have h2 : ('\x7b' : Char) ∉ x := fun h => hx _ h rfl
    simp [h1, h2] at hc
  have hfreeB : ∀ c ∈ '1' :: ':' :: ':' :: (clean ++ (['\x7d', '\x7d'] ++ y)),
      c ≠ '\x7b' := by
    intro c hc hEq
    subst hEq
    have h1 : ('\x7b' : Char) ∉ clean := fun h => hclean _ h rfl
    have h2 : ('\x7b' : Char) ∉ y := fun h => hy _ h rfl
    simp [h1, h2] at hc
  constructor
  · rw [hshape, countOcc_append_of_brace_free hfreeA, countOcc_marker_cons,
      countOcc_eq_zero_of_brace_free hfreeB]
  · apply (containsL_iff _ _).mpr
    refine ⟨ctx ++ ('\n' :: ' ' :: x), clean ++ (['\x7d', '\x7d'] ++ y), ?_⟩
    simp [List.append_assoc]

/-- Claim C6 as amended: for every document, highlight list, and filename
none of whose characters is an opening brace (no pre-existing cloze-marker
text), every cloze card produced by the card builder has its cloze body
present, the body contains exactly one cloze deletion marker, and that
marker is numbered c1. -/
theorem C6_amended (content filename : List Char)
    (highlights : List (List Char))
    (hcontent : ∀ c ∈ content, c ≠ '\x7b')
    (hfile : ∀ c ∈ filename, c ≠ '\x7b') :
    ∀ q ∈ generateContextualClozeCards content highlights filename,
      ∃ body, q.clozeText = some body ∧
        countOcc ['\x7b', '\x7b', 'c'] body = 1 ∧
        containsL ['\x7b', '\x7b', 'c', '1', ':', ':'] body = true := by
  intro q hq
  simp only [generateContextualClozeCards, List.mem_filterMap] at hq
  obtain ⟨highlight, hhl, hfq⟩ := hq
  cases hfind : (splitLines content).find?
      (fun line => containsL highlight line) with
  | none => rw [hfind] at hfq; exact absurd hfq (by simp)
  | some targetLine =>
    rw [hfind] at hfq
    have hfq2 : some
        ({ qtype := QKind.cloze,
           question := (filename ++
             (match getMostRelevantHeader content highlight with
              | some hd => '\n' :: '-' :: '>' :: ' ' :: hd
              | none => [])) ++
             ('\n' :: ' ' :: replaceFirst targetLine highlight
               (('\x7b' :: '\x7b' :: 'c' :: '1' :: ':' :: ':' ::
                 stripEqEq highlight) ++ ['\x7d', '\x7d'])),
           answer := stripEqEq highlight,
           clozeText := some ((filename ++
             (match getMostRelevantHeader content highlight with
              | some hd => '\n' :: '-' :: '>' :: ' ' :: hd
              | none => [])) ++
             ('\n' :: ' ' :: replaceFirst targetLine highlight
               (('\x7b' :: '\x7b' :: 'c' :: '1' :: ':' :: ':' ::
                 stripEqEq highlight) ++ ['\x7d', '\x7d']))),
           explanation := none, options := none } : QuizQuestion) =
        some q := hfq
    obtain rfl := Option.some.inj hfq2
    have htmem : targetLine ∈ splitLines content :=
      List.mem_of_find?_eq_some hfind
    have hcont : containsL highlight targetLine = true := by
      simpa using List.find?_some hfind
    have htfree : ∀ c ∈ targetLine, c ≠ '\x7b' :=
      fun c hc => hcontent c (mem_of_mem_splitLines htmem hc)
    have hhfree : ∀ c ∈ highlight, c ≠ '\x7b' := by
      obtain ⟨a, b, hab⟩ := (containsL_iff _ _).mp hcont
      intro c hc
      apply htfree
      rw [hab]
      exact List.mem_append.mpr (Or.inl (List.mem_append.mpr (Or.inr hc)))
    have hcfree : ∀ c ∈ stripEqEq highlight, c ≠ '\x7b' :=
      fun c hc => hhfree c (mem_of_mem_stripEqEq hc)
    have hctxfree : ∀ c ∈ filename ++
        (match getMostRelevantHeader content highlight with
         | some hd => '\n' :: '-' :: '>' :: ' ' :: hd
         | none => ([] : List Char)), c ≠ '\x7b' := by
      intro c hc
      rcases List.mem_append.mp hc with hc | hc
      · exact hfile c hc
      · cases hhd : getMostRelevantHeader content highlight with
        | none => rw [hhd] at hc; simp at hc
        | some hd =>
          rw [hhd] at hc
          simp only [List.mem_cons] at hc
          rcases hc with rfl | rfl | rfl | rfl | hc
          · decide
          · decide
          · decide
          · decide
          · exact fun hEq =>
              hcontent c (mem_of_getMostRelevantHeader hhd hc) hEq
    obtain ⟨x, y, hrf, hxsub, hysub⟩ := replaceFirst_decomp
      (('\x7b' :: '\x7b' :: 'c' :: '1' :: ':' :: ':' ::
        stripEqEq highlight) ++ ['\x7d', '\x7d']) hcont
    have hxfree : ∀ c ∈ x, c ≠ '\x7b' := fun c hc => htfree c (hxsub c hc)
    have hyfree : ∀ c ∈ y, c ≠ '\x7b' := fun c hc => htfree c (hysub c hc)
    refine ⟨_, rfl, ?_⟩
    rw [hrf]
    exact cloze_body_marker_count hctxfree hxfree hyfree hcfree

/-- Claim C6, counterexample: a document that already carries cloze-marker
text produces, through the real highlight-extraction pipeline, exactly one
cloze card whose body contains two deletion markers, refuting the claim for
arbitrary documents. -/
theorem C6_counterexample :
    ((generateContextualClozeCards
        ("\x7b\x7bc1::x\x7d\x7d ==y==".toList)
        (extractHighlights ("\x7b\x7bc1::x\x7d\x7d ==y==".toList))
        ("f.md".toList)).map
      (fun q => q.clozeText.map (countOcc ['\x7b', '\x7b', 'c']))) =
      [some 2] := by
  rfl

/-- Witness for claim C6: the amended theorem applied to a concrete
brace-free document, highlight, and filename. -/
theorem C6_amended_witness :
    ∃ body,
      ((generateContextualClozeCards ("## H\nfoo ==bar== baz".toList)
          ["==bar==".toList] ("n.md".toList)).headD
        ⟨QKind.cloze, [], [], none, none, none⟩).clozeText = some body ∧
      countOcc ['\x7b', '\x7b', 'c'] body = 1 ∧
      containsL ['\x7b', '\x7b', 'c', '1', ':', ':'] body = true := by
  exact C6_amended ("## H\nfoo ==bar== baz".toList) ("n.md".toList)
    ["==bar==".toList] (by decide) (by decide) _ (by decide)

/-- Witness for claim C2: the amended equivalence instantiated at a
concrete line. -/
theorem C2_amended_witness :
    triggerMatchB ("definition".toList) ("definition: a thing".toList) =
        true ↔
      triggerRuleSpec ("definition".toList)
        ("definition: a thing".toList) := by
  exact C2_amended.2.2.2.2 ("definition: a thing".toList)

/-- Witness for claim C3: the amended count theorem instantiated at a
concrete trigger list and document. -/
theorem C3_amended_witness :
    (checkForTriggerWords ["definition".toList]
        ("definition: x".toList)).length =
      ((splitLines ("definition: x".toList)).map
        (fun l => (["definition".toList].filter
          (fun t => triggerMatchB t l)).length)).sum := by
  exact (C3_amended ["definition".toList] ("definition: x".toList)).1

/-- Witness for claim C4: the amended characterization instantiated at the
reference cue line. -/
theorem C4_amended_witness :
    "What is X::It is Y".toList ∈
        extractRemNoteCues ("What is X::It is Y".toList) ↔
      "What is X::It is Y".toList ∈
          splitLines ("What is X::It is Y".toList) ∧
        amendedCuePred ("What is X::It is Y".toList) := by
  exact C4_amended.1 ("What is X::It is Y".toList)
    ("What is X::It is Y".toList)
